import Mathlib

/-!
Formal model of the energy-based QRS detector `calculate_jqrs` from
`src/pebm/ebm/FiducialPoints.py` (lines 252-376), together with the
sampling-frequency check of `FiducialPoints.__init__` (lines 24-26).

Modelling conventions:
* real-valued samples are rationals (`ℚ`), numpy arrays are lists;
* the WFDB write/read round trip (`wrsamp`/`rdrecord`) is treated as the
  identity on the signal, so `ecg = signal`;
* a Python `IndexError` (the only runtime failure reachable in the numeric
  pipeline, at `xs[ind_xs]`) is modelled by `Option.none`;
* `np.median` of an empty array yields NaN in numpy; it is modelled as
  `Option.none`, and every numpy comparison against that NaN is `false`,
  exactly as IEEE comparisons with NaN evaluate in numpy.
-/

namespace PECG

/-- `np.round` / `int(np.round (...))` rounding: round half to even, on `ℚ`.
(The float expressions rounded in the source, `7*fs/256` and `98/100*len(xs)`,
are close enough to their rational values that IEEE evaluation agrees with
exact round-half-to-even for all realistic magnitudes.) -/
def rhe (q : ℚ) : ℤ :=
  if q - ⌊q⌋ < 1/2 then ⌊q⌋
  else if 1/2 < q - ⌊q⌋ then ⌊q⌋ + 1
  else if ⌊q⌋ % 2 = 0 then ⌊q⌋ else ⌊q⌋ + 1

/-- `INT_NB_COEFF = int(np.round(7 * fs / 256))`: integration window length. -/
def INT_NB_COEFF (fs : ℚ) : ℕ := (rhe (7 * fs / 256)).toNat

/-- `np.diff`: `out[i] = x[i+1] - x[i]`, one element shorter. -/
def npDiff (x : List ℚ) : List ℚ := List.zipWith (fun a b => b - a) x x.tail

/-- `np.square` elementwise. -/
def npSquare (x : List ℚ) : List ℚ := x.map (fun v => v * v)

/-- `scipy.signal.lfilter(np.ones(W), 1, x)`: causal moving sum of the last
`W` inputs (zero initial state): `y[i] = x[i-W+1] + ... + x[i]`. -/
def movingSum (W : ℕ) (x : List ℚ) : List ℚ :=
  (List.range x.length).map (fun i => ((x.take (i + 1)).drop (i + 1 - W)).sum)

/-- `np.roll(x, -d)`: circular shift left by `d`. -/
def npRollLeft (d : ℕ) (x : List ℚ) : List ℚ :=
  x.drop (d % x.length) ++ x.take (d % x.length)

/-- The delay-corrected energy envelope `mdfint`: differentiate, square,
integrate over `INT_NB_COEFF` samples, shift left by
`delay = math.ceil(INT_NB_COEFF / 2)` (lines 288-298). -/
def mdfint (fs : ℚ) (ecg : List ℚ) : List ℚ :=
  npRollLeft ((INT_NB_COEFF fs + 1) / 2)
    (movingSum (INT_NB_COEFF fs) (npSquare (npDiff ecg)))

/-- `ind_xs = int(np.round(98 / 100 * len(xs)))` (line 305). -/
def indXs (N : ℕ) : ℕ := (rhe ((98 : ℚ) / 100 * N)).toNat

/-- `xs = np.sort(mdfint_temp); en_thres = xs[ind_xs]` (lines 304-306).
Note the source sorts `mdfint_temp` (the full envelope), not the
sentinel-free copy `mdfint_temp_` it just computed.  `none` models the
`IndexError` raised when `ind_xs` is out of range. -/
def enThres? (fs : ℚ) (ecg : List ℚ) : Option ℚ :=
  let xs := (mdfint fs ecg).insertionSort (· ≤ ·)
  xs[indXs xs.length]?

/-- The value line 301-303 prepares but line 304 fails to use: sort
`mdfint_temp_ = np.delete(mdfint_temp, np.where(ecg == -32768))` (the
envelope with the entries at sentinel positions removed) and pick the same
percentile rank of the reduced array.  This is the spec's (and the source
comment's) intended reference energy. -/
def enThresSpec? (fs : ℚ) (ecg : List ℚ) : Option ℚ :=
  let md := mdfint fs ecg
  let kept := ((List.range md.length).filter
      (fun i => !(decide (ecg.getD i 0 = -32768)))).map (fun i => md.getD i 0)
  let xs := kept.insertionSort (· ≤ ·)
  xs[indXs xs.length]?

/-- `poss_reg = mdfint > thr * en_thres` elementwise (line 307). -/
def possReg (fs thr en : ℚ) (ecg : List ℚ) : List Bool :=
  (mdfint fs ecg).map (fun v => decide (thr * en < v))

/-- `np.where(mask)[0]`: sorted indices of the true entries. -/
def trueIdx (mask : List Bool) : List ℕ :=
  (List.range mask.length).filter (fun i => mask.getD i false)

/-- `tm = np.arange(1/fs, (len(ecg)+1)/fs, 1/fs)`: `tm[k] = (k+1)/fs`. -/
def tmAt (fs : ℚ) (k : ℕ) : ℚ := ((k : ℚ) + 1) / fs

/-- `RRv = np.diff(tm[0, indAboveThreshold])` (line 317). -/
def RRv (fs : ℚ) (idx : List ℕ) : List ℚ :=
  List.zipWith (fun a b => tmAt fs b - tmAt fs a) idx idx.tail

/-- `np.median`; `none` models the NaN produced on an empty array. -/
def npMedian (l : List ℚ) : Option ℚ :=
  let s := l.insertionSort (· ≤ ·)
  if l.length = 0 then none
  else if l.length % 2 = 1 then some (s.getD (l.length / 2) 0)
  else some ((s.getD (l.length / 2 - 1) 0 + s.getD (l.length / 2) 0) / 2)

/-- `medRRv = np.median(RRv[RRv > 0.01])` (line 318). -/
def medRRv? (fs : ℚ) (idx : List ℕ) : Option ℚ :=
  npMedian ((RRv fs idx).filter (fun v => decide (1/100 < v)))

/-- The flagged gaps `(indStart[i], indEnd[i])` of lines 319-322: pairs of
consecutive above-threshold indices whose time difference exceeds
`1.5 * medRRv`.  When `medRRv` is NaN (empty median input) every comparison
`RRv > 1.5 * medRRv` is false, so no gap is flagged. -/
def missedPairs (fs : ℚ) (mask : List Bool) : List (ℕ × ℕ) :=
  match medRRv? fs (trueIdx mask) with
  | none => []
  | some m => ((List.range (RRv fs (trueIdx mask)).length).filter
      (fun i => decide (3/2 * m < (RRv fs (trueIdx mask)).getD i 0))).map
      (fun i => ((trueIdx mask).getD i 0, (trueIdx mask).getD (i + 1) 0))

/-- One slice assignment `poss_reg[s:e] = mdfint[s:e] > low` (lines 325-327). -/
def applyRescue (low : ℚ) (md : List ℚ) (mask : List Bool) (se : ℕ × ℕ) : List Bool :=
  (List.range mask.length).map (fun k =>
    if se.1 ≤ k ∧ k < se.2 then decide (low < md.getD k 0) else mask.getD k false)

/-- The search-back loop (lines 313-327), with the lowered threshold
`0.25 * thr * en_thres`. -/
def searchBack (fs thr en : ℚ) (md : List ℚ) (mask : List Bool) : List Bool :=
  (missedPairs fs mask).foldl (applyRescue (1/4 * thr * en) md) mask

/-- Rising-edge indices, generalised over the value padded in front:
`np.where(np.diff(np.pad(1*poss_reg, (1, 0))) == 1)[0]` is
`leftIdxAux false` (line 329). -/
def leftIdxAux (prev : Bool) (m : List Bool) : List ℕ :=
  (List.range m.length).filter
    (fun i => m.getD i false && (if i = 0 then !prev else !(m.getD (i - 1) false)))

/-- `left`: rising edges of the zero-padded mask (line 329). -/
def leftIdx (mask : List Bool) : List ℕ := leftIdxAux false mask

/-- `right`: falling edges, `np.where(np.diff(np.pad(1*poss_reg, (0, 1))) == -1)[0]`
(line 332). -/
def rightIdx (mask : List Bool) : List ℕ :=
  (List.range mask.length).filter
    (fun i => mask.getD i false && !(mask.getD (i + 1) false))

/-- The contiguous true-runs `[left[j], right[j]]` of the mask; the source
iterates `j` over `range(len(left))` and reads `left[j]`, `right[j]`. -/
def regions (mask : List Bool) : List (ℕ × ℕ) := (leftIdx mask).zip (rightIdx mask)

/-- The slice `ecg[l : r+1]`. -/
def seg (ecg : List ℚ) (lr : ℕ × ℕ) : List ℚ := (ecg.take (lr.2 + 1)).drop lr.1

/-- `np.max` of a nonempty list (0 on the empty list, unreachable in use). -/
def listMax : List ℚ → ℚ
  | [] => 0
  | [a] => a
  | a :: b :: t => max a (listMax (b :: t))

/-- `np.min` of a nonempty list. -/
def listMin : List ℚ → ℚ
  | [] => 0
  | [a] => a
  | a :: b :: t => min a (listMin (b :: t))

/-- `np.argmax`: index of the first maximal entry. -/
def idxMax : List ℚ → ℕ
  | [] => 0
  | [_] => 0
  | a :: b :: t => if listMax (b :: t) ≤ a then 0 else idxMax (b :: t) + 1

/-- `np.argmin`: index of the first minimal entry. -/
def idxMin : List ℚ → ℕ
  | [] => 0
  | [_] => 0
  | a :: b :: t => if a ≤ listMin (b :: t) then 0 else idxMin (b :: t) + 1

/-- `sign = np.median(ecg[loc])` where
`loc[j] = np.argmax(np.abs(ecg[left[j]:right[j]+1])) + left[j]` (lines 335-340). -/
def signMed? (ecg : List ℚ) (rs : List (ℕ × ℕ)) : Option ℚ :=
  npMedian (rs.map (fun lr => ecg.getD (idxMax ((seg ecg lr).map (fun x => |x|)) + lr.1) 0))

/-- The polarity decision `sign > 0` (line 347); false when `sign` is NaN. -/
def posPolarity (ecg : List ℚ) (rs : List (ℕ × ℕ)) : Bool :=
  match signMed? ecg rs with
  | none => false
  | some s => decide (0 < s)

/-- Per-region candidate peak `(maxloc[j], maxval[j])` (lines 346-355):
maximum of the region when the polarity is positive, minimum otherwise. -/
def candidates (ecg : List ℚ) (rs : List (ℕ × ℕ)) (pos : Bool) : List (ℕ × ℚ) :=
  rs.map (fun lr =>
    if pos then (idxMax (seg ecg lr) + lr.1, listMax (seg ecg lr))
    else (idxMin (seg ecg lr) + lr.1, listMin (seg ecg lr)))

/-- The refractory consolidation loop (lines 356-372), written as a left
fold with the retained list kept in reverse (most recent first).  Each step
reproduces one iteration of the source loop: a candidate closer than
`fs * rp` to the previously retained one either is dropped
(`np.delete(..., compt)`, when its absolute amplitude is strictly smaller)
or replaces the previous one (`np.delete(..., compt - 1)`); otherwise it is
appended (`compt = compt + 1`). -/
def consolAux (fsrp : ℚ) : List (ℕ × ℚ) → List (ℕ × ℚ) → List (ℕ × ℚ)
  | racc, [] => racc
  | [], c :: cs => consolAux fsrp [c] cs
  | p :: rest, c :: cs =>
    if (c.1 : ℚ) - (p.1 : ℚ) < fsrp then
      if |c.2| < |p.2| then consolAux fsrp (p :: rest) cs
      else consolAux fsrp (c :: rest) cs
    else consolAux fsrp (c :: p :: rest) cs

/-- The retained peaks in time order. -/
def consolidate (fsrp : ℚ) (cs : List (ℕ × ℚ)) : List (ℕ × ℚ) :=
  (consolAux fsrp [] cs).reverse

/-- `calculate_jqrs(signal, fs, thr, rp)` (lines 252-376): the full detector.
`none` models the `IndexError` at `en_thres = xs[ind_xs]`, the only runtime
failure reachable in the numeric pipeline. -/
def calculate_jqrs (signal : List ℚ) (fs thr rp : ℚ) : Option (List ℕ) :=
  match enThres? fs signal with
  | none => none
  | some en =>
    let md := mdfint fs signal
    let mask := searchBack fs thr en md (possReg fs thr en signal)
    let rs := regions mask
    some ((consolidate (fs * rp) (candidates signal rs (posPolarity signal rs))).map Prod.fst)

/-- The only parameter validation in the excerpt: `FiducialPoints.__init__`
(lines 24-26) raises `WrongParameter` when `fs <= 0`.  `calculate_jqrs`
itself validates nothing. -/
def FiducialPoints_fs_check (fs : ℚ) : Except String Unit :=
  if fs ≤ 0 then Except.error "Sampling frequency should be strictly positive"
  else Except.ok ()

/-- Pairing of rising and falling edge index lists into well-formed runs:
each rise is at or before its fall, and each fall is strictly before every
later rise.  `RunsP (leftIdx mask) (rightIdx mask)` holds for every mask. -/
inductive RunsP : List ℕ → List ℕ → Prop
  | nil : RunsP [] []
  | cons (l r : ℕ) (L R : List ℕ) : l ≤ r → (∀ x ∈ L, r < x) → RunsP L R →
      RunsP (l :: L) (r :: R)

/-! Concrete inputs used by counterexamples and witnesses. -/

/-- A 40-sample squared ramp with a block of WFDB sentinel samples (-32768)
at positions 10-13. -/
def sigC1 : List ℚ :=
  (List.range 40).map (fun i => if 10 ≤ i ∧ i ≤ 13 then (-32768 : ℚ) else (i : ℚ) * i)

/-- A 30-sample alternating 0/1 signal (no sentinels, nonzero envelope). -/
def sigC2 : List ℚ := (List.range 30).map (fun i => if i % 2 = 0 then 0 else 1)

/-- A 76-sample squared ramp: its energy envelope has N = 75 pairwise
distinct values, and 0.98 * 75 = 73.5 is an exact rounding tie. -/
def sigC5 : List ℚ := (List.range 76).map (fun i => (i : ℚ) * i)

/-- A 10-sample ramp: longer than the integration window W = 7 at
fs = 256, yet the percentile rank 9 is out of bounds for the
9-sample envelope. -/
def sigC9 : List ℚ := (List.range 10).map (fun i => (i : ℚ))

/-- A 40-sample signal with three isolated spikes (10 at 5, -12 at 18,
11 at 31). -/
def sigW : List ℚ :=
  (List.range 40).map (fun i =>
    if i = 5 then 10 else if i = 18 then -12 else if i = 31 then 11 else 0)

/-! ## Arithmetic of the percentile rank -/

theorem floor_natCast_div_fifty (d : ℕ) : ⌊(d : ℚ) / 50⌋ = (d / 50 : ℕ) := by
  have h1 : (d / 50) * 50 ≤ d := by omega
  have h2 : d < (d / 50 + 1) * 50 := by omega
  rw [Int.floor_eq_iff]
  constructor
  · rw [le_div_iff₀ (by norm_num)]
    exact_mod_cast h1
  · rw [div_lt_iff₀ (by norm_num)]
    push_cast
    exact_mod_cast h2

theorem fract_natCast_div_fifty (d : ℕ) :
    (d : ℚ) / 50 - (⌊(d : ℚ) / 50⌋ : ℚ) = ((d % 50 : ℕ) : ℚ) / 50 := by
  have hfl : ((⌊(d : ℚ) / 50⌋ : ℤ) : ℚ) = ((d / 50 : ℕ) : ℚ) := by
    rw [floor_natCast_div_fifty]
    norm_cast
  rw [hfl]
  have h : (d : ℚ) = 50 * ((d / 50 : ℕ) : ℚ) + ((d % 50 : ℕ) : ℚ) := by
    exact_mod_cast (Nat.div_add_mod d 50).symm
  rw [h]
  ring

theorem rhe_natCast_div_fifty (d : ℕ) :
    rhe ((d : ℚ) / 50) =
      if d % 50 < 25 then (d / 50 : ℕ)
      else if d % 50 = 25 then
        (if (d / 50) % 2 = 0 then (d / 50 : ℕ) else (d / 50 : ℕ) + 1)
      else (d / 50 : ℕ) + 1 := by
  unfold rhe
  rw [fract_natCast_div_fifty, floor_natCast_div_fifty]
  have hlt : (((d % 50 : ℕ) : ℚ) / 50 < 1 / 2) ↔ d % 50 < 25 := by
    rw [div_lt_iff₀ (by norm_num)]
    constructor
    · intro h
      by_contra hc
      have : (25 : ℚ) ≤ ((d % 50 : ℕ) : ℚ) := by exact_mod_cast Nat.not_lt.mp hc
      linarith
    · intro h
      have : ((d % 50 : ℕ) : ℚ) ≤ 24 := by exact_mod_cast Nat.lt_succ_iff.mp h
      linarith
  have hgt : (1 / 2 < ((d % 50 : ℕ) : ℚ) / 50) ↔ 25 < d % 50 := by
    rw [lt_div_iff₀ (by norm_num)]
    constructor
    · intro h
      by_contra hc
      have : ((d % 50 : ℕ) : ℚ) ≤ 25 := by exact_mod_cast Nat.not_lt.mp hc
      linarith
    · intro h
      have : (26 : ℚ) ≤ ((d % 50 : ℕ) : ℚ) := by exact_mod_cast h
      linarith
  have hpar : (((d / 50 : ℕ) : ℤ) % 2 = 0) ↔ (d / 50) % 2 = 0 := by
    omega
  simp only [hlt, hgt, hpar]
  split_ifs <;> omega

theorem indXs_eq (N : ℕ) :
    indXs N =
      if (49 * N) % 50 < 25 then (49 * N) / 50
      else if (49 * N) % 50 = 25 then
        (if ((49 * N) / 50) % 2 = 0 then (49 * N) / 50 else (49 * N) / 50 + 1)
      else (49 * N) / 50 + 1 := by
  unfold indXs
  have hq : (98 : ℚ) / 100 * N = ((49 * N : ℕ) : ℚ) / 50 := by push_cast; ring
  rw [hq, rhe_natCast_div_fifty]
  split_ifs <;> omega

theorem indXs_lt_iff (N : ℕ) : indXs N < N ↔ 25 ≤ N := by
  rw [indXs_eq]
  split_ifs <;> omega

theorem natFloor_098 (N : ℕ) : Nat.floor ((98 : ℚ) / 100 * N) = (49 * N) / 50 := by
  have hq : (98 : ℚ) / 100 * N = ((49 * N : ℕ) : ℚ) / ((50 : ℕ) : ℚ) := by push_cast; ring
  rw [hq, ← Nat.cast_ofNat, Nat.floor_div_nat, Nat.floor_natCast]

/-! ## Claim theorems: percentile rank and error behaviour -/

attribute [local semireducible] Rat.add Rat.mul Rat.inv Rat.sub

set_option maxRecDepth 40000

/-- C9 counterexample.  The stated contract (fs > 0, thr > 0, at least
W = round(7*fs/256) samples) does not keep the percentile lookup in
bounds: at fs = 256 the window is W = 7, the 10-sample ramp `sigC9`
satisfies the contract, yet the rank `int(np.round(0.98 * 9)) = 9` equals
the envelope length 9, so `xs[ind_xs]` is an out-of-range access
(`calculate_jqrs` raises IndexError, modelled as `none`). -/
theorem c9_percentile_index_out_of_bounds :
    INT_NB_COEFF 256 = 7 ∧ 7 ≤ sigC9.length ∧ (mdfint 256 sigC9).length = 9 ∧
      indXs 9 = 9 ∧ ¬indXs 9 < 9 ∧ calculate_jqrs sigC9 256 (8/10) (1/4) = none := by
  decide

/-- C9 amended: the percentile rank `int(np.round(0.98 * N))` is strictly
below the envelope length N exactly when N ≥ 25, i.e. when the input
signal has at least 26 samples; the contract's window bound W =
round(7*fs/256) is insufficient whenever W < 26. -/
theorem c9_amended_index_in_bounds_iff (N : ℕ) : indXs N < N ↔ 25 ≤ N :=
  indXs_lt_iff N

/-- C5 counterexample.  On the sentinel-free 76-sample ramp `sigC5` the
envelope has N = 75 values (so the count "after exclusion" is also 75),
`floor(0.98 * N) = 73`, but the code picks the sorted value at index
`int(np.round(0.98 * 75)) = 74`, which differs from the value at 73. -/
theorem c5_floor_rank_counterexample :
    (-32768 : ℚ) ∉ sigC5 ∧ (mdfint 256 sigC5).length = 75 ∧
      Nat.floor ((98 : ℚ) / 100 * 75) = 73 ∧ indXs 75 = 74 ∧
      enThres? 256 sigC5 = some (((mdfint 256 sigC5).insertionSort (· ≤ ·)).getD 74 0) ∧
      ((mdfint 256 sigC5).insertionSort (· ≤ ·)).getD 73 0 ≠
        ((mdfint 256 sigC5).insertionSort (· ≤ ·)).getD 74 0 := by
  decide

/-- C5 amended: the rank used at line 305 is `int(np.round(0.98 * N))`
with round-half-to-even, not `floor(0.98 * N)`.  Since 0.98 * N =
(49 * N) / 50, the two agree exactly when the fractional part
((49 * N) mod 50) / 50 is below one half, or is exactly one half (which
happens iff N ≡ 25 mod 50) with even floor; otherwise the code's rank is
floor + 1.  Moreover N counts the full envelope, not the sentinel-excluded
subset (the exclusion is computed but never used, see C1). -/
theorem c5_amended_rank_round_half_even (N : ℕ) :
    indXs N = Nat.floor ((98 : ℚ) / 100 * N) ↔
      (49 * N) % 50 < 25 ∨ ((49 * N) % 50 = 25 ∧ ((49 * N) / 50) % 2 = 0) := by
  rw [natFloor_098, indXs_eq]
  split_ifs <;> omega

/-- C1 (code bug).  Lines 301-303 compute the sentinel-free envelope
`mdfint_temp_` as the comment "exclude the NaN" documents, but line 304
sorts `mdfint_temp` — the unexcluded envelope — so `en_thres` is taken
from a distribution that still contains the envelope samples at sentinel
positions.  On `sigC1` (sentinels at positions 10-13) the value the code
computes differs from the intended sentinel-excluded percentile. -/
theorem c1_sentinel_exclusion_unused :
    (-32768 : ℚ) ∈ sigC1 ∧
      enThres? 256 sigC1 = some 2165683899 ∧
      enThresSpec? 256 sigC1 = some 2165682611 ∧
      enThres? 256 sigC1 ≠ enThresSpec? 256 sigC1 := by
  decide

/-- C2 counterexample.  `calculate_jqrs` raises no `InvalidParameter` (nor
any other validation error) on a non-positive threshold coefficient: with
thr = -1 ≤ 0 on the 30-sample signal `sigC2` it runs to completion and
returns the peak sequence [1]. -/
theorem c2_no_error_on_nonpositive_threshold :
    (-1 : ℚ) ≤ 0 ∧ calculate_jqrs sigC2 256 (-1) (1/4) = some [1] := by
  decide

/-- C8 counterexample.  A flat-line signal with valid parameters does not
always return an empty peak sequence: with only 10 samples (still at least
the integration window W = 7 at fs = 256) the percentile lookup is out of
bounds and the call fails with IndexError (`none`) instead of returning
a sequence. -/
theorem c8_short_flat_line_errors :
    INT_NB_COEFF 256 = 7 ∧ 7 ≤ (List.replicate 10 (5 : ℚ)).length ∧
      calculate_jqrs (List.replicate 10 (5 : ℚ)) 256 (8/10) (1/4) = none := by
  decide

/-! ## Length facts for the pipeline -/

theorem length_npDiff (x : List ℚ) : (npDiff x).length = x.length - 1 := by
  simp [npDiff]

theorem length_npSquare (x : List ℚ) : (npSquare x).length = x.length := by
  simp [npSquare]

theorem length_movingSum (W : ℕ) (x : List ℚ) : (movingSum W x).length = x.length := by
  simp [movingSum]

theorem length_npRollLeft (d : ℕ) (x : List ℚ) : (npRollLeft d x).length = x.length := by
  simp [npRollLeft]
  omega

theorem length_mdfint (fs : ℚ) (ecg : List ℚ) : (mdfint fs ecg).length = ecg.length - 1 := by
  rw [mdfint, length_npRollLeft, length_movingSum, length_npSquare, length_npDiff]

theorem enThres_isSome (fs : ℚ) (signal : List ℚ) (h26 : 26 ≤ signal.length) :
    ∃ en, enThres? fs signal = some en := by
  unfold enThres?
  have hlen : ((mdfint fs signal).insertionSort (· ≤ ·)).length = signal.length - 1 := by
    rw [List.length_insertionSort, length_mdfint]
  have hidx : indXs ((mdfint fs signal).insertionSort (· ≤ ·)).length <
      ((mdfint fs signal).insertionSort (· ≤ ·)).length := by
    rw [hlen]
    exact (indXs_lt_iff _).2 (by omega)
  exact ⟨_, List.getElem?_eq_getElem hidx⟩

/-- C2 amended: `calculate_jqrs` performs no parameter validation of its
own.  For every threshold coefficient (including thr ≤ 0), every
refractory period, and every fs whose integration window is at least one
sample, it runs to completion on any signal of at least 26 samples and
returns a peak sequence.  (The fs ≤ 0 check lives in
`FiducialPoints.__init__` and raises `WrongParameter`; a signal shorter
than 26 samples fails with an IndexError at the percentile lookup, not
with a parameter error.) -/
theorem c2_amended_no_validation (signal : List ℚ) (fs thr rp : ℚ)
    (h26 : 26 ≤ signal.length) (_hW : 1 ≤ INT_NB_COEFF fs) :
    (calculate_jqrs signal fs thr rp).isSome := by
  obtain ⟨en, hen⟩ := enThres_isSome fs signal h26
  unfold calculate_jqrs
  rw [hen]
  rfl

theorem c2_amended_no_validation_witness :
    26 ≤ sigC2.length ∧ 1 ≤ INT_NB_COEFF 256 ∧
      (calculate_jqrs sigC2 256 (-1) (1/4)).isSome :=
  ⟨by decide, by decide,
    c2_amended_no_validation sigC2 256 (-1) (1/4) (by decide) (by decide)⟩

/-! ## Flat-line inputs -/

theorem zipWithSub_replicate (v : ℚ) : ∀ m : ℕ,
    List.zipWith (fun a b => b - a) (List.replicate (m + 1) v) (List.replicate m v) =
      List.replicate m (0 : ℚ)
  | 0 => rfl
  | m + 1 => by
    show List.zipWith _ (v :: List.replicate (m + 1) v) (v :: List.replicate m v) = _
    rw [List.zipWith_cons_cons, zipWithSub_replicate v m]
    simp [List.replicate_succ]

theorem npDiff_replicate (n : ℕ) (v : ℚ) :
    npDiff (List.replicate n v) = List.replicate (n - 1) (0 : ℚ) := by
  cases n with
  | zero => rfl
  | succ m =>
    show List.zipWith _ (List.replicate (m + 1) v) (List.replicate (m + 1) v).tail = _
    rw [List.tail_replicate]
    exact zipWithSub_replicate v m

theorem movingSum_replicate_zero (W m : ℕ) :
    movingSum W (List.replicate m (0 : ℚ)) = List.replicate m 0 := by
  unfold movingSum
  rw [List.length_replicate]
  apply List.ext_getElem
  · simp
  · intro i h1 h2
    simp [List.take_replicate, List.drop_replicate]

theorem npRollLeft_replicate_zero (d m : ℕ) :
    npRollLeft d (List.replicate m (0 : ℚ)) = List.replicate m 0 := by
  unfold npRollLeft
  rw [List.length_replicate, List.drop_replicate, List.take_replicate, ← List.replicate_add]
  congr 1
  omega

theorem mdfint_replicate (fs : ℚ) (n : ℕ) (v : ℚ) :
    mdfint fs (List.replicate n v) = List.replicate (n - 1) (0 : ℚ) := by
  rw [mdfint, npDiff_replicate]
  rw [show npSquare (List.replicate (n - 1) 0) = List.replicate (n - 1) 0 by
    simp [npSquare]]
  rw [movingSum_replicate_zero, npRollLeft_replicate_zero]

theorem insertionSort_replicate_zero (m : ℕ) :
    (List.replicate m (0 : ℚ)).insertionSort (· ≤ ·) = List.replicate m 0 :=
  List.Sorted.insertionSort_eq (List.pairwise_replicate.mpr (Or.inr le_rfl))

theorem getD_replicate_false (k i : ℕ) :
    (List.replicate k false).getD i false = false := by
  rw [List.getD_eq_getElem?_getD, List.getElem?_replicate]
  split <;> rfl

theorem filter_range_false {p : ℕ → Bool} (k : ℕ) (hp : ∀ i, i < k → p i = false) :
    (List.range k).filter p = [] := by
  rw [List.filter_eq_nil_iff]
  intro a ha
  rw [List.mem_range] at ha
  simp [hp a ha]

/-- C8 amended: every flat-line signal with at least 26 samples (so that
the percentile rank is in bounds) yields an empty peak sequence, for every
fs, threshold coefficient and refractory period; the degenerate statistics
(all-false mask, empty RR-median input, empty region list) are traversed
without any numeric error. -/
theorem c8_amended_flat_line_empty (n : ℕ) (v fs thr rp : ℚ) (h : 26 ≤ n) :
    calculate_jqrs (List.replicate n v) fs thr rp = some [] := by
  have hmd := mdfint_replicate fs n v
  have hen : enThres? fs (List.replicate n v) = some 0 := by
    unfold enThres?
    rw [hmd, insertionSort_replicate_zero]
    show (List.replicate (n - 1) (0 : ℚ))[indXs (List.replicate (n - 1) (0 : ℚ)).length]? =
      some 0
    rw [List.length_replicate, List.getElem?_replicate,
      if_pos ((indXs_lt_iff _).2 (by omega))]
  have hmask : possReg fs thr 0 (List.replicate n v) = List.replicate (n - 1) false := by
    unfold possReg
    rw [hmd, List.map_replicate]
    simp
  have htrue : trueIdx (List.replicate (n - 1) false) = [] := by
    unfold trueIdx
    rw [List.length_replicate]
    exact filter_range_false _ (fun i _ => getD_replicate_false _ i)
  have hmp : missedPairs fs (List.replicate (n - 1) false) = [] := by
    unfold missedPairs
    rw [htrue]
    rfl
  have hleft : leftIdx (List.replicate (n - 1) false) = [] := by
    unfold leftIdx leftIdxAux
    rw [List.length_replicate]
    refine filter_range_false _ (fun i _ => ?_)
    rw [getD_replicate_false]
    rfl
  have hright : rightIdx (List.replicate (n - 1) false) = [] := by
    unfold rightIdx
    rw [List.length_replicate]
    refine filter_range_false _ (fun i _ => ?_)
    rw [getD_replicate_false]
    rfl
  have hsb : searchBack fs thr 0 (mdfint fs (List.replicate n v))
      (possReg fs thr 0 (List.replicate n v)) = List.replicate (n - 1) false := by
    unfold searchBack
    rw [hmask, hmp]
    rfl
  have hreg : regions (List.replicate (n - 1) false) = [] := by
    unfold regions
    rw [hleft, hright]
    rfl
  unfold calculate_jqrs
  rw [hen]
  simp only [hsb, hreg]
  rfl

theorem c8_amended_flat_line_empty_witness :
    26 ≤ 30 ∧ calculate_jqrs (List.replicate 30 (7 : ℚ)) 256 (8/10) (1/4) = some [] :=
  ⟨by norm_num, c8_amended_flat_line_empty 30 7 256 (8/10) (1/4) (by norm_num)⟩

/-! ## Polarity branch -/

/-- C10: whenever the per-region extremum median `sign` is not strictly
positive — whether it is exactly zero, negative, or NaN because there are
no regions at all (`np.median` of an empty array) — the comparison
`sign > 0` at line 347 is false, so the detector takes the
negative-polarity branch and picks each region's minimum (`np.min` /
`np.argmin`) as that region's candidate peak. -/
theorem c10_nonpositive_median_negative_branch (ecg : List ℚ) (rs : List (ℕ × ℕ))
    (h : signMed? ecg rs = none ∨ ∃ s, signMed? ecg rs = some s ∧ s ≤ 0) :
    candidates ecg rs (posPolarity ecg rs) =
      rs.map (fun lr => (idxMin (seg ecg lr) + lr.1, listMin (seg ecg lr))) := by
  have hp : posPolarity ecg rs = false := by
    unfold posPolarity
    rcases h with h | ⟨s, hs, hle⟩
    · rw [h]
    · rw [hs]
      show decide (0 < s) = false
      exact decide_eq_false (not_lt.mpr hle)
  rw [hp]
  simp [candidates]

theorem c10_nonpositive_median_negative_branch_witness :
    candidates sigW [(14, 19), (27, 32)] (posPolarity sigW [(14, 19), (27, 32)]) =
      [(14, 19), (27, 32)].map
        (fun lr => (idxMin (seg sigW lr) + lr.1, listMin (seg sigW lr))) :=
  c10_nonpositive_median_negative_branch sigW [(14, 19), (27, 32)]
    (Or.inr ⟨-(1/2), by decide, by decide⟩)

/-! ## Structure of the extracted runs -/

theorem filter_range_succ_shift (p : ℕ → Bool) (k : ℕ) :
    (List.range (k + 1)).filter p =
      (if p 0 then [0] else []) ++ ((List.range k).filter (fun i => p (i + 1))).map (· + 1) := by
  rw [List.range_succ_eq_map, List.filter_cons, List.filter_map]
  have hc : List.filter (p ∘ Nat.succ) (List.range k) =
      List.filter (fun i => p (i + 1)) (List.range k) := rfl
  have hs : List.map Nat.succ (List.filter (fun i => p (i + 1)) (List.range k)) =
      (List.filter (fun i => p (i + 1)) (List.range k)).map (· + 1) := rfl
  rw [hc, hs]
  split <;> simp

theorem leftIdxAux_cons (prev b : Bool) (t : List Bool) :
    leftIdxAux prev (b :: t) =
      (if b && !prev then [0] else []) ++ (leftIdxAux b t).map (· + 1) := by
  unfold leftIdxAux
  rw [List.length_cons, filter_range_succ_shift]
  congr 1
  refine congrArg (List.map (· + 1)) (List.filter_congr ?_)
  intro i _
  cases i with
  | zero => simp
  | succ j => simp

theorem rightIdx_cons (b : Bool) (t : List Bool) :
    rightIdx (b :: t) =
      (if b && !(t.headD false) then [0] else []) ++ (rightIdx t).map (· + 1) := by
  unfold rightIdx
  rw [List.length_cons, filter_range_succ_shift]
  congr 1
  cases t <;> simp

theorem leftIdxAux_head_false (prev : Bool) (t : List Bool) (h : t.headD false = false) :
    leftIdxAux prev t = leftIdxAux false t := by
  cases t with
  | nil => rfl
  | cons b t' =>
    simp only [List.headD_cons] at h
    subst h
    rw [leftIdxAux_cons, leftIdxAux_cons]
    simp

theorem RunsP.map_add_one {L R : List ℕ} (h : RunsP L R) :
    RunsP (L.map (· + 1)) (R.map (· + 1)) := by
  induction h with
  | nil => exact RunsP.nil
  | cons l r L R hlr hsep hP ih =>
    simp only [List.map_cons]
    refine RunsP.cons _ _ _ _ (by omega) ?_ ih
    intro x hx
    obtain ⟨y, hy, rfl⟩ := List.mem_map.mp hx
    have := hsep y hy
    omega

theorem runs_structure (m : List Bool) :
    RunsP (leftIdxAux false m) (rightIdx m) ∧
      (m.headD false = true →
        ∃ r R, rightIdx m = r :: R ∧ (∀ x ∈ leftIdxAux true m, r < x) ∧
          RunsP (leftIdxAux true m) R) := by
  induction m with
  | nil => exact ⟨RunsP.nil, by simp⟩
  | cons b t ih =>
    obtain ⟨ihA, ihB⟩ := ih
    cases b with
    | false =>
      refine ⟨?_, by simp⟩
      rw [leftIdxAux_cons, rightIdx_cons]
      simpa using ihA.map_add_one
    | true =>
      constructor
      · rw [leftIdxAux_cons, rightIdx_cons]
        cases ht : t.headD false with
        | false =>
          rw [leftIdxAux_head_false true t ht]
          refine RunsP.cons _ _ _ _ le_rfl ?_ ihA.map_add_one
          intro x hx
          obtain ⟨y, hy, rfl⟩ := List.mem_map.mp hx
          show 0 < y + 1
          omega
        | true =>
          obtain ⟨r, R, hR, hsep, hP⟩ := ihB ht
          simp only [ht, hR]
          refine RunsP.cons _ _ _ _ (by omega) ?_ hP.map_add_one
          intro x hx
          obtain ⟨y, hy, rfl⟩ := List.mem_map.mp hx
          have := hsep y hy
          show r + 1 < y + 1
          omega
      · intro _
        rw [leftIdxAux_cons, rightIdx_cons]
        cases ht : t.headD false with
        | false =>
          refine ⟨0, (rightIdx t).map (· + 1), by simp [ht], ?_, ?_⟩
          · intro x hx
            simp at hx
            obtain ⟨y, hy, rfl⟩ := hx
            omega
          · rw [leftIdxAux_head_false true t ht]
            simpa using ihA.map_add_one
        | true =>
          obtain ⟨r, R, hR, hsep, hP⟩ := ihB ht
          refine ⟨r + 1, R.map (· + 1), by simp [ht, hR], ?_, ?_⟩
          · intro x hx
            simp at hx
            obtain ⟨y, hy, rfl⟩ := hx
            have := hsep y hy
            omega
          · simpa using hP.map_add_one

theorem runsP_mask (mask : List Bool) : RunsP (leftIdx mask) (rightIdx mask) :=
  (runs_structure mask).1

theorem RunsP.zip_le {L R : List ℕ} (h : RunsP L R) : ∀ p ∈ L.zip R, p.1 ≤ p.2 := by
  induction h with
  | nil => simp
  | cons l r L R hlr hsep hP ih =>
    intro p hp
    rw [List.zip_cons_cons, List.mem_cons] at hp
    rcases hp with rfl | hp
    · exact hlr
    · exact ih p hp

theorem RunsP.zip_pairwise {L R : List ℕ} (h : RunsP L R) :
    List.Pairwise (fun a b : ℕ × ℕ => a.2 < b.1) (L.zip R) := by
  induction h with
  | nil => simp
  | cons l r L R hlr hsep hP ih =>
    rw [List.zip_cons_cons]
    refine List.pairwise_cons.mpr ⟨?_, ih⟩
    intro p hp
    exact hsep p.1 (List.of_mem_zip hp).1

theorem mem_regions_snd_lt (mask : List Bool) :
    ∀ p ∈ regions mask, p.1 ≤ p.2 ∧ p.2 < mask.length := by
  intro p hp
  refine ⟨(runsP_mask mask).zip_le p hp, ?_⟩
  have h2 : p.2 ∈ rightIdx mask := (List.of_mem_zip hp).2
  exact List.mem_range.mp (List.mem_of_mem_filter h2)

/-! ## Candidate peaks are strictly increasing and in range -/

theorem idxMax_le_length : ∀ l : List ℚ, idxMax l ≤ l.length - 1
  | [] => by simp [idxMax]
  | [a] => by simp [idxMax]
  | a :: b :: t => by
    rw [idxMax]
    split
    · simp
    · have := idxMax_le_length (b :: t)
      simp only [List.length_cons] at *
      omega

theorem idxMin_le_length : ∀ l : List ℚ, idxMin l ≤ l.length - 1
  | [] => by simp [idxMin]
  | [a] => by simp [idxMin]
  | a :: b :: t => by
    rw [idxMin]
    split
    · simp
    · have := idxMin_le_length (b :: t)
      simp only [List.length_cons] at *
      omega

theorem length_seg (ecg : List ℚ) (lr : ℕ × ℕ) :
    (seg ecg lr).length = min (lr.2 + 1) ecg.length - lr.1 := by
  simp [seg]

/-- The first component of a per-region candidate lies inside its region. -/
theorem candidate_fst_bounds (ecg : List ℚ) (pos : Bool) (p : ℕ × ℕ) (hp : p.1 ≤ p.2) :
    p.1 ≤ ((if pos then (idxMax (seg ecg p) + p.1, listMax (seg ecg p))
        else (idxMin (seg ecg p) + p.1, listMin (seg ecg p))) : ℕ × ℚ).1 ∧
      ((if pos then (idxMax (seg ecg p) + p.1, listMax (seg ecg p))
        else (idxMin (seg ecg p) + p.1, listMin (seg ecg p))) : ℕ × ℚ).1 ≤ p.2 := by
  have h1 := idxMax_le_length (seg ecg p)
  have h2 := idxMin_le_length (seg ecg p)
  rw [length_seg] at h1 h2
  have hmin : min (p.2 + 1) ecg.length ≤ p.2 + 1 := min_le_left _ _
  cases pos
  · refine ⟨?_, ?_⟩
    · show p.1 ≤ idxMin (seg ecg p) + p.1
      omega
    · show idxMin (seg ecg p) + p.1 ≤ p.2
      omega
  · refine ⟨?_, ?_⟩
    · show p.1 ≤ idxMax (seg ecg p) + p.1
      omega
    · show idxMax (seg ecg p) + p.1 ≤ p.2
      omega

theorem pairwise_imp_mem {α : Type} {R S : α → α → Prop} :
    ∀ {l : List α}, (∀ a ∈ l, ∀ b ∈ l, R a b → S a b) → List.Pairwise R l →
      List.Pairwise S l
  | [], _, _ => List.Pairwise.nil
  | a :: t, h, hp => by
    rw [List.pairwise_cons] at hp ⊢
    refine ⟨fun b hb => h a (by simp) b (by simp [hb]) (hp.1 b hb), ?_⟩
    exact pairwise_imp_mem (fun x hx y hy => h x (by simp [hx]) y (by simp [hy])) hp.2

theorem candidates_pairwise (ecg : List ℚ) (mask : List Bool) (pos : Bool) :
    List.Pairwise (fun a b : ℕ × ℚ => a.1 < b.1)
      (candidates ecg (regions mask) pos) := by
  unfold candidates
  rw [List.pairwise_map]
  refine pairwise_imp_mem ?_ ((runsP_mask mask).zip_pairwise)
  intro a ha b hb hab
  have hA := candidate_fst_bounds ecg pos a (mem_regions_snd_lt mask a ha).1
  have hB := candidate_fst_bounds ecg pos b (mem_regions_snd_lt mask b hb).1
  omega

theorem candidates_fst_lt (ecg : List ℚ) (mask : List Bool) (pos : Bool) :
    ∀ c ∈ candidates ecg (regions mask) pos, c.1 < mask.length := by
  unfold candidates
  intro c hc
  obtain ⟨p, hp, rfl⟩ := List.mem_map.mp hc
  obtain ⟨hp1, hp2⟩ := mem_regions_snd_lt mask p hp
  have := (candidate_fst_bounds ecg pos p hp1).2
  omega

/-! ## The refractory consolidation fold -/

theorem consolAux_mem (fsrp : ℚ) :
    ∀ (cands racc : List (ℕ × ℚ)), ∀ x ∈ consolAux fsrp racc cands,
      x ∈ racc ∨ x ∈ cands
  | [], racc => by
    intro x hx
    rw [consolAux] at hx
    exact Or.inl hx
  | c :: cs, [] => by
    intro x hx
    rcases consolAux_mem fsrp cs [c] x hx with h | h
    · simp only [List.mem_singleton] at h
      exact Or.inr (by simp [h])
    · exact Or.inr (by simp [h])
  | c :: cs, p :: rest => by
    intro x hx
    rw [consolAux] at hx
    split at hx
    · split at hx
      · rcases consolAux_mem fsrp cs (p :: rest) x hx with h | h
        · exact Or.inl h
        · exact Or.inr (by simp [h])
      · rcases consolAux_mem fsrp cs (c :: rest) x hx with h | h
        · rcases List.mem_cons.mp h with rfl | h
          · exact Or.inr (by simp)
          · exact Or.inl (by simp [h])
        · exact Or.inr (by simp [h])
    · rcases consolAux_mem fsrp cs (c :: p :: rest) x hx with h | h
      · rcases List.mem_cons.mp h with rfl | h
        · exact Or.inr (by simp)
        · exact Or.inl h
      · exact Or.inr (by simp [h])

/-- Invariant of the consolidation loop: the reversed retained list is
kept strictly decreasing in location with adjacent gaps of at least
`fsrp`. -/
theorem consolAux_chain (fsrp : ℚ) :
    ∀ (cands racc : List (ℕ × ℚ)),
      List.Pairwise (fun a b : ℕ × ℚ => a.1 < b.1) cands →
      (∀ p ∈ racc, ∀ c ∈ cands, p.1 < c.1) →
      List.Chain' (fun a b : ℕ × ℚ => fsrp ≤ (a.1 : ℚ) - (b.1 : ℚ) ∧ b.1 < a.1) racc →
      List.Chain' (fun a b : ℕ × ℚ => fsrp ≤ (a.1 : ℚ) - (b.1 : ℚ) ∧ b.1 < a.1)
        (consolAux fsrp racc cands)
  | [], racc => fun _ _ hch => by
    rw [consolAux]
    exact hch
  | c :: cs, [] => fun hpw hsep _ => by
    rw [consolAux]
    refine consolAux_chain fsrp cs [c] ((List.pairwise_cons.mp hpw).2) ?_ (by simp)
    intro p hp c' hc'
    simp only [List.mem_singleton] at hp
    subst hp
    exact (List.pairwise_cons.mp hpw).1 c' hc'
  | c :: cs, p :: rest => fun hpw hsep hch => by
    rw [consolAux]
    have hpc : p.1 < c.1 := hsep p (by simp) c (by simp)
    have hcs : ∀ c' ∈ cs, c.1 < c'.1 := (List.pairwise_cons.mp hpw).1
    have hsep' : ∀ q ∈ p :: rest, ∀ c' ∈ cs, q.1 < c'.1 :=
      fun q hq c' hc' => hsep q hq c' (by simp [hc'])
    split
    · split
      · exact consolAux_chain fsrp cs (p :: rest) (List.pairwise_cons.mp hpw).2 hsep' hch
      · refine consolAux_chain fsrp cs (c :: rest) (List.pairwise_cons.mp hpw).2 ?_ ?_
        · intro q hq c' hc'
          rcases List.mem_cons.mp hq with rfl | hq
          · exact hcs c' hc'
          · exact hsep q (by simp [hq]) c' (by simp [hc'])
        · cases rest with
          | nil => simp
          | cons o rest' =>
            have hpo := List.chain'_cons.mp hch
            refine List.chain'_cons.mpr ⟨⟨?_, ?_⟩, hpo.2⟩
            · have hcast : (p.1 : ℚ) < (c.1 : ℚ) := by exact_mod_cast hpc
              linarith [hpo.1.1]
            · omega
    · refine consolAux_chain fsrp cs (c :: p :: rest) (List.pairwise_cons.mp hpw).2 ?_ ?_
      · intro q hq c' hc'
        rcases List.mem_cons.mp hq with rfl | hq
        · exact hcs c' hc'
        · exact hsep q hq c' (by simp [hc'])
      · refine List.chain'_cons.mpr ⟨⟨?_, hpc⟩, hch⟩
        linarith [not_lt.mp (by assumption : ¬(c.1 : ℚ) - (p.1 : ℚ) < fsrp)]

/-! ## Assembling the output invariants -/

theorem length_applyRescue (low : ℚ) (md : List ℚ) (mask : List Bool) (se : ℕ × ℕ) :
    (applyRescue low md mask se).length = mask.length := by
  simp [applyRescue]

theorem length_foldl_applyRescue (low : ℚ) (md : List ℚ) :
    ∀ (ps : List (ℕ × ℕ)) (mask : List Bool),
      (ps.foldl (applyRescue low md) mask).length = mask.length
  | [], mask => rfl
  | p :: ps, mask => by
    rw [List.foldl_cons, length_foldl_applyRescue low md ps, length_applyRescue]

theorem length_searchBack (fs thr en : ℚ) (md : List ℚ) (mask : List Bool) :
    (searchBack fs thr en md mask).length = mask.length :=
  length_foldl_applyRescue _ _ _ _

theorem length_possReg (fs thr en : ℚ) (ecg : List ℚ) :
    (possReg fs thr en ecg).length = ecg.length - 1 := by
  simp [possReg, length_mdfint]

theorem consolidate_props (ecg : List ℚ) (mask : List Bool) (pos : Bool) (fsrp : ℚ) :
    List.Chain' (fun a b : ℕ × ℚ => (fsrp ≤ (b.1 : ℚ) - (a.1 : ℚ)) ∧ a.1 < b.1)
      (consolidate fsrp (candidates ecg (regions mask) pos)) ∧
      ∀ c ∈ consolidate fsrp (candidates ecg (regions mask) pos), c.1 < mask.length := by
  constructor
  · unfold consolidate
    rw [List.chain'_reverse]
    exact consolAux_chain fsrp (candidates ecg (regions mask) pos) []
      (candidates_pairwise ecg mask pos) (by simp) (by simp)
  · intro c hc
    unfold consolidate at hc
    rw [List.mem_reverse] at hc
    rcases consolAux_mem fsrp _ _ c hc with h | h
    · simp at h
    · exact candidates_fst_lt ecg mask pos c h

set_option maxHeartbeats 2000000 in
set_option linter.constructorNameAsVariable false in
theorem calculate_jqrs_out_chain (signal : List ℚ) (fs thr rp : ℚ) (out : List ℕ)
    (h : calculate_jqrs signal fs thr rp = some out) :
    List.Chain' (fun a b : ℕ => (fs * rp ≤ (b : ℚ) - (a : ℚ)) ∧ a < b) out ∧
      ∀ x ∈ out, x < signal.length := by
  unfold calculate_jqrs at h
  cases hen : enThres? fs signal with
  | none =>
    rw [hen] at h
    exact absurd h (by simp)
  | some en =>
    rw [hen] at h
    have h' : (consolidate (fs * rp) (candidates signal
        (regions (searchBack fs thr en (mdfint fs signal) (possReg fs thr en signal)))
        (posPolarity signal (regions (searchBack fs thr en (mdfint fs signal)
          (possReg fs thr en signal)))))).map Prod.fst = out := by
      simpa using h
    subst h'
    obtain ⟨hch, hmem⟩ := consolidate_props signal
      (searchBack fs thr en (mdfint fs signal) (possReg fs thr en signal))
      (posPolarity signal (regions (searchBack fs thr en (mdfint fs signal)
        (possReg fs thr en signal)))) (fs * rp)
    constructor
    · rw [List.chain'_map]
      exact hch.imp (fun _ _ hab => hab)
    · intro x hx
      obtain ⟨c, hc, rfl⟩ := List.mem_map.mp hx
      have hlen : (searchBack fs thr en (mdfint fs signal)
          (possReg fs thr en signal)).length = signal.length - 1 := by
        rw [length_searchBack, length_possReg]
      have := hmem c hc
      omega

/-- C3: in the sequence returned by `calculate_jqrs`, every pair of
adjacent retained peaks is separated by at least `fs * rp` samples.  The
discard rule embedded in `consolAux` is exactly the source's: a new
candidate closer than `fs * rp` to the previously retained one is dropped
when its absolute amplitude is strictly smaller and otherwise (greater or
equal, hence on ties) replaces the previous one; since per-region
candidates are strictly increasing in location, a replacement only moves
the retained peak rightwards, so the separation invariant survives it. -/
theorem c3_refractory_invariant (signal : List ℚ) (fs thr rp : ℚ) (out : List ℕ)
    (h : calculate_jqrs signal fs thr rp = some out) :
    List.Chain' (fun a b : ℕ => fs * rp ≤ (b : ℚ) - (a : ℚ)) out :=
  (calculate_jqrs_out_chain signal fs thr rp out h).1.imp (fun _ _ hab => hab.1)

theorem c3_refractory_invariant_witness :
    List.Chain' (fun a b : ℕ => (256 : ℚ) * (1/100) ≤ (b : ℚ) - (a : ℚ)) [18, 27] :=
  c3_refractory_invariant sigW 256 (8/10) (1/100) [18, 27] (by decide)

/-- C4: the sequence returned by `calculate_jqrs` is strictly increasing,
and every element is a valid index into the original (pre-differentiation)
signal: each retained location lies inside its threshold-crossing region,
whose right edge is below the envelope length, which is one below the
signal length. -/
theorem c4_output_strictly_increasing_and_in_bounds (signal : List ℚ) (fs thr rp : ℚ)
    (out : List ℕ) (h : calculate_jqrs signal fs thr rp = some out) :
    List.Chain' (fun a b : ℕ => a < b) out ∧ ∀ x ∈ out, x < signal.length :=
  ⟨(calculate_jqrs_out_chain signal fs thr rp out h).1.imp (fun _ _ hab => hab.2),
    (calculate_jqrs_out_chain signal fs thr rp out h).2⟩

theorem c4_output_strictly_increasing_and_in_bounds_witness :
    List.Chain' (fun a b : ℕ => a < b) [18, 27] ∧
      18 < sigW.length ∧ 27 < sigW.length := by
  have h := c4_output_strictly_increasing_and_in_bounds sigW 256 (8/10) (1/100)
    [18, 27] (by decide)
  exact ⟨h.1, h.2 18 (by simp), h.2 27 (by simp)⟩

/-! ## Search-back semantics -/

theorem applyRescue_getD (low : ℚ) (md : List ℚ) (mask : List Bool) (se : ℕ × ℕ)
    (k : ℕ) (hk : k < mask.length) :
    (applyRescue low md mask se).getD k false =
      if se.1 ≤ k ∧ k < se.2 then decide (low < md.getD k 0) else mask.getD k false := by
  unfold applyRescue
  rw [List.getD_eq_getElem?_getD, List.getElem?_map, List.getElem?_range hk]
  rfl

theorem foldl_applyRescue_getD (low : ℚ) (md : List ℚ) :
    ∀ (ps : List (ℕ × ℕ)) (mask : List Bool) (k : ℕ), k < mask.length →
      (ps.foldl (applyRescue low md) mask).getD k false =
        if ps.any (fun se => decide (se.1 ≤ k) && decide (k < se.2))
          then decide (low < md.getD k 0) else mask.getD k false
  | [], mask, k, hk => by simp
  | p :: ps, mask, k, hk => by
    rw [List.foldl_cons,
      foldl_applyRescue_getD low md ps (applyRescue low md mask p) k
        (by rw [length_applyRescue]; exact hk),
      applyRescue_getD low md mask p k hk]
    cases hps : ps.any (fun se => decide (se.1 ≤ k) && decide (k < se.2)) with
    | false =>
      by_cases hp : p.1 ≤ k ∧ k < p.2
      · simp [hps, hp]
      · simp [hps, hp]
    | true => simp [hps]

theorem trueIdx_pairwise (mask : List Bool) : List.Pairwise (· < ·) (trueIdx mask) :=
  (List.pairwise_lt_range mask.length).filter _

theorem mem_trueIdx (mask : List Bool) (k : ℕ) :
    k ∈ trueIdx mask ↔ k < mask.length ∧ mask.getD k false = true := by
  unfold trueIdx
  rw [List.mem_filter, List.mem_range]

theorem trueIdx_getD_mem (mask : List Bool) (i : ℕ) (hi : i < (trueIdx mask).length) :
    (trueIdx mask).getD i 0 ∈ trueIdx mask := by
  rw [List.getD_eq_getElem _ _ hi]
  exact List.getElem_mem _

theorem trueIdx_getD_mask (mask : List Bool) (i : ℕ) (hi : i < (trueIdx mask).length) :
    mask.getD ((trueIdx mask).getD i 0) false = true :=
  ((mem_trueIdx mask _).mp (trueIdx_getD_mem mask i hi)).2

theorem trueIdx_consecutive (mask : List Bool) (i : ℕ)
    (hi : i + 1 < (trueIdx mask).length) (k : ℕ)
    (h1 : (trueIdx mask).getD i 0 < k) (h2 : k < (trueIdx mask).getD (i + 1) 0) :
    mask.getD k false = false := by
  by_contra hk
  rw [Bool.not_eq_false] at hk
  have hklen : k < mask.length := by
    have := ((mem_trueIdx mask _).mp (trueIdx_getD_mem mask (i + 1) hi)).1
    omega
  have hkmem : k ∈ trueIdx mask := (mem_trueIdx mask k).mpr ⟨hklen, hk⟩
  obtain ⟨j, hj, hjk⟩ := List.mem_iff_getElem.mp hkmem
  have hpw := List.pairwise_iff_getElem.mp (trueIdx_pairwise mask)
  rw [List.getD_eq_getElem _ _ (by omega : i < (trueIdx mask).length)] at h1
  rw [List.getD_eq_getElem _ _ hi] at h2
  rcases lt_trichotomy j i with hji | rfl | hij
  · have := hpw j i hj (by omega) hji
    omega
  · omega
  · rcases eq_or_lt_of_le (by omega : i + 1 ≤ j) with rfl | hij2
    · omega
    · have := hpw (i + 1) j hi hj hij2
      omega

theorem missedPairs_spec (fs : ℚ) (mask : List Bool) :
    ∀ se ∈ missedPairs fs mask,
      mask.getD se.1 false = true ∧
        ∀ k, se.1 < k → k < se.2 → mask.getD k false = false := by
  intro se hse
  unfold missedPairs at hse
  cases hmed : medRRv? fs (trueIdx mask) with
  | none =>
    rw [hmed] at hse
    simp at hse
  | some m =>
    rw [hmed] at hse
    obtain ⟨i, hi, rfl⟩ := List.mem_map.mp hse
    have hilen : i < (RRv fs (trueIdx mask)).length :=
      List.mem_range.mp (List.mem_of_mem_filter hi)
    have hrr : (RRv fs (trueIdx mask)).length = (trueIdx mask).length - 1 := by
      simp [RRv]
    constructor
    · exact trueIdx_getD_mask mask i (by omega)
    · intro k hk1 hk2
      exact trueIdx_consecutive mask i (by omega) k hk1 hk2

theorem mdfint_nonneg (fs : ℚ) (ecg : List ℚ) : ∀ v ∈ mdfint fs ecg, 0 ≤ v := by
  intro v hv
  unfold mdfint npRollLeft at hv
  rw [List.mem_append] at hv
  have hv' : v ∈ movingSum (INT_NB_COEFF fs) (npSquare (npDiff ecg)) := by
    rcases hv with h | h
    · exact List.mem_of_mem_drop h
    · exact List.mem_of_mem_take h
  unfold movingSum at hv'
  obtain ⟨i, _, rfl⟩ := List.mem_map.mp hv'
  apply List.sum_nonneg
  intro x hx
  have hx' : x ∈ npSquare (npDiff ecg) :=
    List.mem_of_mem_take (List.mem_of_mem_drop hx)
  obtain ⟨y, _, rfl⟩ := List.mem_map.mp hx'
  exact mul_self_nonneg y

theorem enThres_nonneg (fs : ℚ) (ecg : List ℚ) (en : ℚ)
    (hen : enThres? fs ecg = some en) : 0 ≤ en := by
  unfold enThres? at hen
  have hmem : en ∈ (mdfint fs ecg).insertionSort (· ≤ ·) := List.getElem?_mem hen
  rw [List.mem_insertionSort] at hmem
  exact mdfint_nonneg fs ecg en hmem

theorem possReg_getD (fs thr en : ℚ) (ecg : List ℚ) (k : ℕ)
    (hk : k < (mdfint fs ecg).length) :
    (possReg fs thr en ecg).getD k false =
      decide (thr * en < (mdfint fs ecg).getD k 0) := by
  unfold possReg
  rw [List.getD_eq_getElem?_getD, List.getElem?_map, List.getElem?_eq_getElem hk,
    List.getD_eq_getElem _ _ hk]
  rfl

/-- C6: net effect of the search-back pass on the above-threshold mask.
The gaps are flagged from the RR-interval median over the consecutive
above-threshold time differences greater than 0.01 s (`missedPairs` /
`medRRv?` embed lines 317-322 literally); for a non-negative threshold
coefficient, the final mask at each position equals the original mask
OR-ed with the lowered-threshold comparison `0.25 * thr * en_thres <
mdfint[k]` restricted to positions strictly between the two bounding
above-threshold indices of some flagged gap: samples already above the
primary threshold stay marked (the slice assignment rewrites the left
bound with the lowered comparison, which cannot unmark it since the
lowered threshold is at most the primary one), and no sample outside a
flagged gap changes. -/
theorem c6_search_back_or_semantics (signal : List ℚ) (fs thr en : ℚ)
    (hthr : 0 ≤ thr) (hen : enThres? fs signal = some en) (k : ℕ)
    (hk : k < (possReg fs thr en signal).length) :
    (searchBack fs thr en (mdfint fs signal) (possReg fs thr en signal)).getD k false =
      ((possReg fs thr en signal).getD k false ||
        ((missedPairs fs (possReg fs thr en signal)).any
            (fun se => decide (se.1 < k) && decide (k < se.2)) &&
          decide (1/4 * thr * en < (mdfint fs signal).getD k 0))) := by
  have hklen : k < (mdfint fs signal).length := by
    have h1 := length_possReg fs thr en signal
    have h2 := length_mdfint fs signal
    omega
  unfold searchBack
  rw [foldl_applyRescue_getD _ _ _ _ k hk]
  cases hcov : (missedPairs fs (possReg fs thr en signal)).any
      (fun se => decide (se.1 ≤ k) && decide (k < se.2)) with
  | false =>
    have hstrict : (missedPairs fs (possReg fs thr en signal)).any
        (fun se => decide (se.1 < k) && decide (k < se.2)) = false := by
      rw [List.any_eq_false] at hcov ⊢
      intro se hse
      have := hcov se hse
      simp only [Bool.and_eq_true, decide_eq_true_eq, not_and] at this ⊢
      omega
    rw [hstrict]
    simp
  | true =>
    obtain ⟨se, hse, hsek⟩ := List.any_eq_true.mp hcov
    simp only [Bool.and_eq_true, decide_eq_true_eq] at hsek
    obtain ⟨hs1, hs2⟩ := hsek
    by_cases hstrict : se.1 < k
    · have horig : (possReg fs thr en signal).getD k false = false :=
        (missedPairs_spec fs _ se hse).2 k hstrict hs2
      have hstrictany : (missedPairs fs (possReg fs thr en signal)).any
          (fun se => decide (se.1 < k) && decide (k < se.2)) = true :=
        List.any_eq_true.mpr ⟨se, hse, by simp [hstrict, hs2]⟩
      rw [horig, hstrictany]
      simp
    · have hks : k = se.1 := by omega
      have horig : (possReg fs thr en signal).getD k false = true := by
        rw [hks]
        exact (missedPairs_spec fs _ se hse).1
      have hmd : thr * en < (mdfint fs signal).getD k 0 := by
        have h := possReg_getD fs thr en signal k hklen
        rw [horig] at h
        exact of_decide_eq_true h.symm
      have hlow : 1/4 * thr * en < (mdfint fs signal).getD k 0 := by
        have hten : 0 ≤ thr * en := mul_nonneg hthr (enThres_nonneg fs signal en hen)
        linarith
      rw [horig]
      simp only [Bool.true_or, if_true, decide_eq_true_eq]
      exact hlow

theorem c6_search_back_or_semantics_witness :
    (searchBack 256 (8/10) 288 (mdfint 256 sigW)
        (possReg 256 (8/10) 288 sigW)).getD 20 false =
      ((possReg 256 (8/10) 288 sigW).getD 20 false ||
        ((missedPairs 256 (possReg 256 (8/10) 288 sigW)).any
            (fun se => decide (se.1 < 20) && decide (20 < se.2)) &&
          decide (1/4 * (8/10) * 288 < (mdfint 256 sigW).getD 20 0))) :=
  c6_search_back_or_semantics sigW 256 (8/10) 288 (by norm_num) (by decide) 20 (by decide)

/-! ## Scale invariance: commuting lemmas for each stage -/

theorem sum_map_mul (k : ℚ) (l : List ℚ) :
    (l.map (fun v => k * v)).sum = k * l.sum := by
  induction l with
  | nil => simp
  | cons a t ih => simp [ih, mul_add]

theorem getD_map_mul (k : ℚ) (l : List ℚ) (i : ℕ) :
    (l.map (fun v => k * v)).getD i 0 = k * l.getD i 0 := by
  rcases lt_or_le i l.length with h | h
  · rw [List.getD_eq_getElem _ _ (by simpa using h), List.getD_eq_getElem _ _ h,
      List.getElem_map]
  · rw [List.getD_eq_default _ _ (by simpa using h), List.getD_eq_default _ _ h, mul_zero]

theorem npDiff_map_mul (c : ℚ) :
    ∀ x : List ℚ, npDiff (x.map (fun v => c * v)) = (npDiff x).map (fun v => c * v)
  | [] => rfl
  | [a] => rfl
  | a :: b :: t => by
    have ih := npDiff_map_mul c (b :: t)
    show (c * b - c * a) :: npDiff ((b :: t).map (fun v => c * v)) =
      (c * (b - a)) :: (npDiff (b :: t)).map (fun v => c * v)
    rw [ih, mul_sub]

theorem npSquare_map_mul (c : ℚ) (x : List ℚ) :
    npSquare (x.map (fun v => c * v)) = (npSquare x).map (fun v => c * c * v) := by
  unfold npSquare
  rw [List.map_map, List.map_map]
  apply List.map_congr_left
  intro a _
  show (c * a) * (c * a) = c * c * (a * a)
  ring

theorem movingSum_map_mul (k : ℚ) (W : ℕ) (x : List ℚ) :
    movingSum W (x.map (fun v => k * v)) = (movingSum W x).map (fun v => k * v) := by
  unfold movingSum
  rw [List.length_map, List.map_map]
  apply List.map_congr_left
  intro i _
  show (((x.map (fun v => k * v)).take (i + 1)).drop (i + 1 - W)).sum =
    k * (((x.take (i + 1)).drop (i + 1 - W)).sum)
  rw [← List.map_take, ← List.map_drop, sum_map_mul]

theorem npRollLeft_map (f : ℚ → ℚ) (d : ℕ) (x : List ℚ) :
    npRollLeft d (x.map f) = (npRollLeft d x).map f := by
  unfold npRollLeft
  rw [List.length_map, List.map_append, List.map_take, List.map_drop]

theorem mdfint_map_mul (c : ℚ) (fs : ℚ) (ecg : List ℚ) :
    mdfint fs (ecg.map (fun v => c * v)) =
      (mdfint fs ecg).map (fun v => c * c * v) := by
  unfold mdfint
  rw [npDiff_map_mul c ecg, npSquare_map_mul, movingSum_map_mul, npRollLeft_map]

theorem orderedInsert_map_mul (c : ℚ) (hc : 0 < c) (a : ℚ) :
    ∀ l : List ℚ, (l.map (fun v => c * v)).orderedInsert (· ≤ ·) (c * a) =
      (l.orderedInsert (· ≤ ·) a).map (fun v => c * v)
  | [] => rfl
  | b :: t => by
    rw [List.map_cons]
    unfold List.orderedInsert
    by_cases hab : a ≤ b
    · rw [if_pos ((mul_le_mul_left hc).mpr hab), if_pos hab, List.map_cons, List.map_cons]
    · rw [if_neg (fun h => hab ((mul_le_mul_left hc).mp h)), if_neg hab, List.map_cons,
        orderedInsert_map_mul c hc a t]

theorem insertionSort_map_mul (c : ℚ) (hc : 0 < c) :
    ∀ l : List ℚ, (l.map (fun v => c * v)).insertionSort (· ≤ ·) =
      (l.insertionSort (· ≤ ·)).map (fun v => c * v)
  | [] => rfl
  | a :: t => by
    rw [List.map_cons]
    unfold List.insertionSort
    rw [insertionSort_map_mul c hc t, orderedInsert_map_mul c hc a]

theorem enThres_map_mul (c : ℚ) (hc : 0 < c) (fs : ℚ) (ecg : List ℚ) :
    enThres? fs (ecg.map (fun v => c * v)) =
      (enThres? fs ecg).map (fun v => c * c * v) := by
  unfold enThres?
  rw [mdfint_map_mul c fs ecg, insertionSort_map_mul (c * c) (mul_pos hc hc)]
  show (List.map (fun v => c * c * v) ((mdfint fs ecg).insertionSort (· ≤ ·)))[
      indXs (List.map (fun v => c * c * v)
        ((mdfint fs ecg).insertionSort (· ≤ ·))).length]? =
    Option.map (fun v => c * c * v) (((mdfint fs ecg).insertionSort (· ≤ ·))[
      indXs ((mdfint fs ecg).insertionSort (· ≤ ·)).length]?)
  rw [List.length_map, List.getElem?_map]

theorem possReg_map_mul (c : ℚ) (hc : 0 < c) (fs thr en : ℚ) (ecg : List ℚ) :
    possReg fs thr (c * c * en) (ecg.map (fun v => c * v)) = possReg fs thr en ecg := by
  unfold possReg
  rw [mdfint_map_mul c fs ecg, List.map_map]
  apply List.map_congr_left
  intro v _
  show decide (thr * (c * c * en) < c * c * v) = decide (thr * en < v)
  rw [decide_eq_decide]
  have h : thr * (c * c * en) = c * c * (thr * en) := by ring
  rw [h]
  exact mul_lt_mul_left (mul_pos hc hc)

theorem applyRescue_map_mul (c : ℚ) (hc : 0 < c) (thr en : ℚ) (md : List ℚ)
    (mask : List Bool) (se : ℕ × ℕ) :
    applyRescue (1/4 * thr * (c * c * en)) (md.map (fun v => c * c * v)) mask se =
      applyRescue (1/4 * thr * en) md mask se := by
  unfold applyRescue
  apply List.map_congr_left
  intro k _
  by_cases hk : se.1 ≤ k ∧ k < se.2
  · rw [if_pos hk, if_pos hk, decide_eq_decide, getD_map_mul]
    have h : 1/4 * thr * (c * c * en) = c * c * (1/4 * thr * en) := by ring
    rw [h]
    exact mul_lt_mul_left (mul_pos hc hc)
  · rw [if_neg hk, if_neg hk]

theorem searchBack_map_mul (c : ℚ) (hc : 0 < c) (fs thr en : ℚ) (md : List ℚ)
    (mask : List Bool) :
    searchBack fs thr (c * c * en) (md.map (fun v => c * c * v)) mask =
      searchBack fs thr en md mask := by
  unfold searchBack
  have h : ∀ (ps : List (ℕ × ℕ)) (m : List Bool),
      ps.foldl (applyRescue (1/4 * thr * (c * c * en)) (md.map (fun v => c * c * v))) m =
        ps.foldl (applyRescue (1/4 * thr * en) md) m := by
    intro ps
    induction ps with
    | nil => intro m; rfl
    | cons p pt ih =>
      intro m
      rw [List.foldl_cons, List.foldl_cons, applyRescue_map_mul c hc, ih]
  exact h _ _

theorem seg_map (f : ℚ → ℚ) (ecg : List ℚ) (lr : ℕ × ℕ) :
    seg (ecg.map f) lr = (seg ecg lr).map f := by
  unfold seg
  rw [← List.map_take, ← List.map_drop]

theorem listMax_map_mul (c : ℚ) (hc : 0 < c) :
    ∀ l : List ℚ, listMax (l.map (fun v => c * v)) = c * listMax l
  | [] => by simp [listMax]
  | [a] => by simp [listMax]
  | a :: b :: t => by
    have ih := listMax_map_mul c hc (b :: t)
    show max (c * a) (listMax ((b :: t).map (fun v => c * v))) =
      c * max a (listMax (b :: t))
    rw [ih]
    rcases le_total a (listMax (b :: t)) with h | h
    · rw [max_eq_right h, max_eq_right ((mul_le_mul_left hc).mpr h)]
    · rw [max_eq_left h, max_eq_left ((mul_le_mul_left hc).mpr h)]

theorem listMin_map_mul (c : ℚ) (hc : 0 < c) :
    ∀ l : List ℚ, listMin (l.map (fun v => c * v)) = c * listMin l
  | [] => by simp [listMin]
  | [a] => by simp [listMin]
  | a :: b :: t => by
    have ih := listMin_map_mul c hc (b :: t)
    show min (c * a) (listMin ((b :: t).map (fun v => c * v))) =
      c * min a (listMin (b :: t))
    rw [ih]
    rcases le_total a (listMin (b :: t)) with h | h
    · rw [min_eq_left h, min_eq_left ((mul_le_mul_left hc).mpr h)]
    · rw [min_eq_right h, min_eq_right ((mul_le_mul_left hc).mpr h)]

theorem idxMax_map_mul (c : ℚ) (hc : 0 < c) :
    ∀ l : List ℚ, idxMax (l.map (fun v => c * v)) = idxMax l
  | [] => rfl
  | [a] => rfl
  | a :: b :: t => by
    have ih := idxMax_map_mul c hc (b :: t)
    show (if listMax ((b :: t).map (fun v => c * v)) ≤ c * a then 0
      else idxMax ((b :: t).map (fun v => c * v)) + 1) =
      (if listMax (b :: t) ≤ a then 0 else idxMax (b :: t) + 1)
    rw [listMax_map_mul c hc (b :: t), ih]
    by_cases h : listMax (b :: t) ≤ a
    · rw [if_pos ((mul_le_mul_left hc).mpr h), if_pos h]
    · rw [if_neg (fun hcon => h ((mul_le_mul_left hc).mp hcon)), if_neg h]

theorem idxMin_map_mul (c : ℚ) (hc : 0 < c) :
    ∀ l : List ℚ, idxMin (l.map (fun v => c * v)) = idxMin l
  | [] => rfl
  | [a] => rfl
  | a :: b :: t => by
    have ih := idxMin_map_mul c hc (b :: t)
    show (if c * a ≤ listMin ((b :: t).map (fun v => c * v)) then 0
      else idxMin ((b :: t).map (fun v => c * v)) + 1) =
      (if a ≤ listMin (b :: t) then 0 else idxMin (b :: t) + 1)
    rw [listMin_map_mul c hc (b :: t), ih]
    by_cases h : a ≤ listMin (b :: t)
    · rw [if_pos ((mul_le_mul_left hc).mpr h), if_pos h]
    · rw [if_neg (fun hcon => h ((mul_le_mul_left hc).mp hcon)), if_neg h]

theorem npMedian_map_mul (c : ℚ) (hc : 0 < c) (l : List ℚ) :
    npMedian (l.map (fun v => c * v)) = (npMedian l).map (fun v => c * v) := by
  unfold npMedian
  rw [List.length_map, insertionSort_map_mul c hc]
  by_cases h0 : l.length = 0
  · rw [if_pos h0, if_pos h0]
    rfl
  · rw [if_neg h0, if_neg h0]
    by_cases hodd : l.length % 2 = 1
    · rw [if_pos hodd, if_pos hodd, getD_map_mul]
      rfl
    · rw [if_neg hodd, if_neg hodd, getD_map_mul, getD_map_mul]
      show some _ = some _
      rw [Option.some_inj]
      ring

theorem signMed_map_mul (c : ℚ) (hc : 0 < c) (ecg : List ℚ) (rs : List (ℕ × ℕ)) :
    signMed? (ecg.map (fun v => c * v)) rs =
      (signMed? ecg rs).map (fun v => c * v) := by
  unfold signMed?
  rw [← npMedian_map_mul c hc]
  congr 1
  rw [List.map_map]
  apply List.map_congr_left
  intro lr _
  show (ecg.map (fun v => c * v)).getD
      (idxMax ((seg (ecg.map (fun v => c * v)) lr).map (fun x => |x|)) + lr.1) 0 =
    c * ecg.getD (idxMax ((seg ecg lr).map (fun x => |x|)) + lr.1) 0
  rw [seg_map]
  have habs : ((seg ecg lr).map (fun v => c * v)).map (fun x => |x|) =
      ((seg ecg lr).map (fun x => |x|)).map (fun v => c * v) := by
    rw [List.map_map, List.map_map]
    apply List.map_congr_left
    intro x _
    show |c * x| = c * |x|
    rw [abs_mul, abs_of_pos hc]
  rw [habs, idxMax_map_mul c hc, getD_map_mul]

theorem posPolarity_map_mul (c : ℚ) (hc : 0 < c) (ecg : List ℚ) (rs : List (ℕ × ℕ)) :
    posPolarity (ecg.map (fun v => c * v)) rs = posPolarity ecg rs := by
  unfold posPolarity
  rw [signMed_map_mul c hc]
  cases signMed? ecg rs with
  | none => rfl
  | some s =>
    show decide (0 < c * s) = decide (0 < s)
    rw [decide_eq_decide]
    constructor
    · intro h
      by_contra hn
      push_neg at hn
      nlinarith
    · exact fun h => mul_pos hc h

theorem candidates_map_mul (c : ℚ) (hc : 0 < c) (ecg : List ℚ) (rs : List (ℕ × ℕ))
    (pos : Bool) :
    candidates (ecg.map (fun v => c * v)) rs pos =
      (candidates ecg rs pos).map (fun p => (p.1, c * p.2)) := by
  unfold candidates
  rw [List.map_map]
  apply List.map_congr_left
  intro lr _
  cases pos
  · show (idxMin (seg (ecg.map (fun v => c * v)) lr) + lr.1,
        listMin (seg (ecg.map (fun v => c * v)) lr)) =
      (idxMin (seg ecg lr) + lr.1, c * listMin (seg ecg lr))
    rw [seg_map, idxMin_map_mul c hc, listMin_map_mul c hc]
  · show (idxMax (seg (ecg.map (fun v => c * v)) lr) + lr.1,
        listMax (seg (ecg.map (fun v => c * v)) lr)) =
      (idxMax (seg ecg lr) + lr.1, c * listMax (seg ecg lr))
    rw [seg_map, idxMax_map_mul c hc, listMax_map_mul c hc]

theorem consolAux_map_mul (c : ℚ) (hc : 0 < c) (fsrp : ℚ) :
    ∀ (cands racc : List (ℕ × ℚ)),
      consolAux fsrp (racc.map (fun p => (p.1, c * p.2)))
          (cands.map (fun p => (p.1, c * p.2))) =
        (consolAux fsrp racc cands).map (fun p => (p.1, c * p.2))
  | [], racc => by
    rw [List.map_nil, consolAux, consolAux]
  | q :: cs, [] => by
    rw [List.map_nil, List.map_cons, consolAux, consolAux]
    exact consolAux_map_mul c hc fsrp cs [q]
  | q :: cs, p :: rest => by
    rw [List.map_cons, List.map_cons, consolAux, consolAux]
    by_cases hd : (q.1 : ℚ) - (p.1 : ℚ) < fsrp
    · rw [if_pos hd, if_pos hd]
      by_cases ha : |q.2| < |p.2|
      · have ha' : |c * q.2| < |c * p.2| := by
          rw [abs_mul, abs_mul, abs_of_pos hc]
          exact (mul_lt_mul_left hc).mpr ha
        rw [if_pos ha', if_pos ha]
        exact consolAux_map_mul c hc fsrp cs (p :: rest)
      · have ha' : ¬|c * q.2| < |c * p.2| := by
          rw [abs_mul, abs_mul, abs_of_pos hc]
          exact fun hcon => ha ((mul_lt_mul_left hc).mp hcon)
        rw [if_neg ha', if_neg ha]
        exact consolAux_map_mul c hc fsrp cs (q :: rest)
    · rw [if_neg hd, if_neg hd]
      exact consolAux_map_mul c hc fsrp cs (q :: p :: rest)

theorem consolidate_fst_map_mul (c : ℚ) (hc : 0 < c) (fsrp : ℚ)
    (cands : List (ℕ × ℚ)) :
    (consolidate fsrp (cands.map (fun p => (p.1, c * p.2)))).map Prod.fst =
      (consolidate fsrp cands).map Prod.fst := by
  unfold consolidate
  have h := consolAux_map_mul c hc fsrp cands []
  rw [List.map_nil] at h
  rw [h, List.map_reverse, List.map_reverse, List.map_map]
  rfl

/-- C7: multiplying every sample of the input by a positive constant does
not change the detected peak locations.  Both the primary and the lowered
energy thresholds, the per-region extrema, the polarity decision and the
refractory amplitude comparisons scale consistently (the energy envelope
by c², the signal amplitudes by c), so every comparison made by the
detector is invariant.  (The WFDB write/read round trip is modelled as the
identity; the sentinel comparison `ecg == -32768` has no effect on the
output because the excluded copy it produces is never used, see C1.) -/
theorem c7_scale_invariance (signal : List ℚ) (c fs thr rp : ℚ) (hc : 0 < c) :
    calculate_jqrs (signal.map (fun v => c * v)) fs thr rp =
      calculate_jqrs signal fs thr rp := by
  unfold calculate_jqrs
  rw [enThres_map_mul c hc fs signal]
  cases hen : enThres? fs signal with
  | none => rfl
  | some en =>
    show some _ = some _
    rw [Option.some_inj]
    rw [mdfint_map_mul c fs signal, possReg_map_mul c hc, searchBack_map_mul c hc,
      posPolarity_map_mul c hc, candidates_map_mul c hc]
    exact consolidate_fst_map_mul c hc (fs * rp) _

theorem c7_scale_invariance_witness :
    calculate_jqrs (sigW.map (fun v => 2 * v)) 256 (8/10) (1/4) =
      calculate_jqrs sigW 256 (8/10) (1/4) :=
  c7_scale_invariance sigW 2 256 (8/10) (1/4) (by norm_num)

end PECG
